import Mathlib

/-!
Verification development for the Patent-Text-Extractor repository.

The repository (three Python files: patent_text_extractor.py, CVRT3.0.py,
Patent-anim2.py) rasterizes patent PDFs, splits each page into two column
images, runs OCR on each column, concatenates the two texts, writes the
artifacts to disk and extracts five bibliographic fields from the combined
text with regular expressions.

This file gives a shallow embedding of that pipeline:
* strings are modelled as List Char (ASCII fragment of Python str);
* the individual regular expressions of parse_patent_info are embedded as
  dedicated matching functions reproducing the exact backtracking
  semantics of Python re.search for those patterns (leftmost match, greedy
  star with give-back, lazy plus, lookahead alternatives tried at each
  extension point);
* the PDF/OCR engines are abstract parameters (render outcome = an
  Except value; recognize = an arbitrary function from images to text);
* file persistence is modelled by an in-order write log.
-/

namespace Patent

/-- Literal helper: the character list of a string literal. -/
def chars (s : String) : List Char := s.data

/-- Python regex class backslash-s (ASCII fragment): space, tab, newline,
carriage return, vertical tab, form feed. -/
def isSpaceCh (c : Char) : Bool :=
  c = ' ' || c = '\t' || c = '\n' || c = '\r' || c = '\x0b' || c = '\x0c'

/-- Python regex class backslash-d (ASCII fragment). -/
def isDigitCh (c : Char) : Bool := c.isDigit

/-- Python regex class backslash-w (ASCII fragment): letters, digits,
underscore. -/
def isWordCh (c : Char) : Bool := c.isAlphanum || c = '_'

/-- Match a literal (case-sensitive): if `p` is a prefix of `s`, return the
rest of `s`. -/
def stripLit : List Char → List Char → Option (List Char)
  | [], s => some s
  | _ :: _, [] => none
  | p :: ps, c :: cs => if c = p then stripLit ps cs else none

/-- Match a literal up to ASCII case (re.IGNORECASE): if `p` matches a
prefix of `s` case-insensitively, return the rest of `s`. -/
def stripLitCI : List Char → List Char → Option (List Char)
  | [], s => some s
  | _ :: _, [] => none
  | p :: ps, c :: cs => if c.toLower = p.toLower then stripLitCI ps cs else none

/-- Does the lookahead alternative `(?=\(\d{2}\))` hold at this position:
an opening parenthesis, two digits, a closing parenthesis. -/
def isSectionMarkerAt : List Char → Bool
  | '(' :: a :: b :: ')' :: _ => isDigitCh a && isDigitCh b
  | _ => false

/-- Does a blank line start at this position: two consecutive newlines.
As a lookahead, the patterns `\n{2,}` (title) and `\n\n` (inventors,
abstract) are both satisfied exactly when two newlines follow. -/
def isBlankAt : List Char → Bool
  | '\n' :: '\n' :: _ => true
  | _ => false

/-- Terminator lookahead of the title and inventors captures:
`(?=\(\d{2}\)|\n{2,}|\Z)` resp. `(?=\(\d{2}\)|\n\n|\Z)` (the end-of-text
alternative is handled by the capture loop itself). -/
def termMarkerOrBlank (s : List Char) : Bool := isSectionMarkerAt s || isBlankAt s

/-- Terminator lookahead of the abstract capture: `(?=\n\n|\Z)`. -/
def termBlank (s : List Char) : Bool := isBlankAt s

/-- Lazy extension of the capture `[\s\S]+?` after its first forced
character: keep consuming characters until the terminator lookahead holds
or the text ends (the `\Z` alternative). -/
def captureUntil (term : List Char → Bool) : List Char → List Char
  | [] => []
  | c :: rest => if term (c :: rest) then [] else c :: captureUntil term rest

/-- The block `\s*([\s\S]+?)(?=term|\Z)` of the title, inventors and
abstract rules, with the backtracking behaviour of the Python engine:
the greedy `\s*` first consumes the maximal whitespace run; the lazy
capture then needs at least one character and extends minimally until the
lookahead holds (the `\Z` alternative always holds at the end of text).
If the whitespace run reaches the end of the text the engine backtracks
`\s*` by one character and the capture takes that single whitespace
character (the lookahead then holds via `\Z`).  The block fails only when
it starts at the end of the text. -/
def wsLazySpan (term : List Char → Bool) (s : List Char) : Option (List Char) :=
  match s.dropWhile isSpaceCh with
  | c :: r => some (c :: captureUntil term r)
  | [] =>
    match (s.takeWhile isSpaceCh).reverse with
    | w :: _ => some [w]
    | [] => none

/-- re.search: try the pattern at each position of the text from left to
right (including the position at the end of the text) and return the first
success. -/
def searchFrom (tryAt : List Char → Option α) : List Char → Option α
  | [] => tryAt []
  | s@(_ :: rest) =>
    match tryAt s with
    | some v => some v
    | none => searchFrom tryAt rest

/-- Title rule (patent_text_extractor.py line 138, CVRT3.0.py line 122,
Patent-anim2.py line 121): attempt of the pattern
`\(54\)\s*([\s\S]+?)(?=\(\d{2}\)|\n{2,}|\Z)` (re.IGNORECASE is passed but
the pattern has no cased letter) at one position; returns group 1. -/
def tryTitleAt (s : List Char) : Option (List Char) :=
  (stripLit (chars "(54)") s).bind (wsLazySpan termMarkerOrBlank)

/-- Inventors rule (patent_text_extractor.py line 151, CVRT3.0.py line 134,
Patent-anim2.py line 133): attempt of
`Inventors?:\s*([\s\S]+?)(?=\(\d{2}\)|\n\n|\Z)` with re.IGNORECASE at one
position; returns group 1.  The greedy optional `s?` first tries to
consume an s; if the whole remainder of the pattern then fails, the engine
retries without the s. -/
def tryInventorsAt (s : List Char) : Option (List Char) :=
  match stripLitCI (chars "inventor") s with
  | none => none
  | some r =>
    let withS :=
      (stripLitCI (chars "s") r).bind fun r2 =>
        (stripLitCI (chars ":") r2).bind (wsLazySpan termMarkerOrBlank)
    match withS with
    | some g => some g
    | none => (stripLitCI (chars ":") r).bind (wsLazySpan termMarkerOrBlank)

/-- Abstract rule of patent_text_extractor.py line 158 and
Patent-anim2.py line 136: attempt of
`Abstract:?\s*([\s\S]+?)(?=\n\n|\Z)` with re.IGNORECASE at one position;
returns group 1.  The greedy optional colon backtracks like the optional
s of the inventors rule. -/
def tryAbstractAt (s : List Char) : Option (List Char) :=
  match stripLitCI (chars "abstract") s with
  | none => none
  | some r =>
    match (stripLitCI (chars ":") r).bind (wsLazySpan termBlank) with
    | some g => some g
    | none => wsLazySpan termBlank r

/-- Abstract rule of CVRT3.0.py line 137: attempt of
`Abstract?\s*([\s\S]+?)(?=\n\n|\Z)` with re.IGNORECASE at one position.
Here the optional character is the final t of Abstract (the pattern has no
colon), so the literal part is only `Abstrac`. -/
def tryAbstractLegacyAt (s : List Char) : Option (List Char) :=
  match stripLitCI (chars "abstrac") s with
  | none => none
  | some r =>
    match (stripLitCI (chars "t") r).bind (wsLazySpan termBlank) with
    | some g => some g
    | none => wsLazySpan termBlank r

/-- Exactly `n` digits: return them and the rest of the text. -/
def exactDigits : Nat → List Char → Option (List Char × List Char)
  | 0, s => some ([], s)
  | _ + 1, [] => none
  | n + 1, c :: cs =>
    if isDigitCh c then
      (exactDigits n cs).map fun p => (c :: p.1, p.2)
    else none

/-- Tail `,\d{3},\d{3}\s\w\d` of the patent-number pattern: on success,
return the matched characters. -/
def numTail (s : List Char) : Option (List Char) :=
  match s with
  | ',' :: r =>
    (exactDigits 3 r).bind fun p1 =>
      match p1.2 with
      | ',' :: r2 =>
        (exactDigits 3 r2).bind fun p2 =>
          match p2.2 with
          | w :: x :: y :: _ =>
            if isSpaceCh w && isWordCh x && isDigitCh y then
              some (',' :: (p1.1 ++ ',' :: (p2.1 ++ [w, x, y])))
            else none
          | _ => none
      | _ => none
  | _ => none

/-- Number rule (patent_text_extractor.py line 142, and identically in the
two legacy files): attempt of `US\s\d{1,3},\d{3},\d{3}\s\w\d`
(case-sensitive, no flags) at one position; returns group 0, the whole
match.  The greedy bounded repeat `\d{1,3}` tries three digits first, then
two, then one, each time running the whole remainder of the pattern. -/
def tryNumberAt (s : List Char) : Option (List Char) :=
  match s with
  | 'U' :: 'S' :: w :: r =>
    if isSpaceCh w then
      match (exactDigits 3 r).bind fun p =>
          (numTail p.2).map fun t => 'U' :: 'S' :: w :: (p.1 ++ t) with
      | some m => some m
      | none =>
        match (exactDigits 2 r).bind fun p =>
            (numTail p.2).map fun t => 'U' :: 'S' :: w :: (p.1 ++ t) with
        | some m => some m
        | none =>
          (exactDigits 1 r).bind fun p =>
            (numTail p.2).map fun t => 'U' :: 'S' :: w :: (p.1 ++ t)
    else none
  | _ => none

/-- The twelve month literals of the date pattern, in the order of the
alternation `(?:Jan|Feb|Mar|Apr|May|Jun|Jul|Aug|Sep|Oct|Nov|Dec)`
(case-sensitive). -/
def monthLits : List (List Char) :=
  [chars "Jan", chars "Feb", chars "Mar", chars "Apr", chars "May", chars "Jun",
   chars "Jul", chars "Aug", chars "Sep", chars "Oct", chars "Nov", chars "Dec"]

/-- Try the month alternation at one position: first alternative that
matches wins (the twelve literals are mutually exclusive anyway). -/
def tryMonth (alts : List (List Char)) (s : List Char) : Option (List Char × List Char) :=
  match alts with
  | [] => none
  | m :: ms =>
    match stripLit m s with
    | some r => some (m, r)
    | none => tryMonth ms s

/-- Date rule (patent_text_extractor.py lines 145 to 148, and identically
in the two legacy files): attempt of
`\(45\)\s*Date of Patent:\s*(\b(?:Jan|...|Dec)\.\s\d{1,2},\s\d{4}\b)`
(case-sensitive) at one position; returns group 1.

Both `\s*` are deterministic here: they are followed by a non-whitespace
literal, so giving characters back can never help the engine.  The word
boundary before the month always holds because the preceding character is
a colon or a whitespace character, neither of which is a word character.
The trailing word boundary requires the character after the year, if any,
to be a non-word character.  `\d{1,2}` backtracks like `\d{1,3}` above. -/
def tryDateAt (s : List Char) : Option (List Char) :=
  (stripLit (chars "(45)") s).bind fun r1 =>
    (stripLit (chars "Date of Patent:") (r1.dropWhile isSpaceCh)).bind fun r3 =>
      let r4 := r3.dropWhile isSpaceCh
      (tryMonth monthLits r4).bind fun mp =>
        match mp.2 with
        | '.' :: w1 :: rest =>
          if isSpaceCh w1 then
            let tryDay : Nat → Option (List Char) := fun n =>
              (exactDigits n rest).bind fun dp =>
                match dp.2 with
                | ',' :: w2 :: r7 =>
                  if isSpaceCh w2 then
                    (exactDigits 4 r7).bind fun yp =>
                      let out := mp.1 ++ '.' :: w1 :: (dp.1 ++ ',' :: w2 :: yp.1)
                      match yp.2 with
                      | [] => some out
                      | c :: _ => if isWordCh c then none else some out
                  else none
                | _ => none
            match tryDay 2 with
            | some g => some g
            | none => tryDay 1
          else none
        | _ => none

/-- Python str.strip(): remove leading and trailing whitespace. -/
def pyStrip (s : List Char) : List Char :=
  ((s.dropWhile isSpaceCh).reverse.dropWhile isSpaceCh).reverse

/-- Python str.replace of a newline by a space: every newline character
becomes one space character. -/
def replaceNlSpace (s : List Char) : List Char :=
  s.map fun c => if c = '\n' then ' ' else c

/-- Python str.lstrip with the single-character set of a closing
parenthesis: remove every leading closing parenthesis. -/
def lstripParen (s : List Char) : List Char :=
  s.dropWhile fun c => c = ')'

/-- Container for parsed patent metadata (the PatentInfo dataclass of
patent_text_extractor.py; the two legacy files return the same five values
as a tuple). -/
structure PatentInfo where
  title : List Char
  number : List Char
  date : List Char
  inventors : List Char
  abstract : List Char
deriving Repr, DecidableEq

/-- parse_patent_info of patent_text_extractor.py lines 135 to 161:
five independent re.search calls with fallback defaults; title is
stripped, has newlines replaced by spaces and (also in the fallback case)
leading closing parentheses removed; inventors is stripped and has
newlines replaced by spaces; abstract is only stripped; number and date
are used verbatim. -/
def parse_patent_info (text : List Char) : PatentInfo :=
  let title0 :=
    match searchFrom tryTitleAt text with
    | some g => replaceNlSpace (pyStrip g)
    | none => chars "Title N/A"
  let title := lstripParen title0
  let number :=
    match searchFrom tryNumberAt text with
    | some m => m
    | none => chars "PATENT # N/A"
  let date :=
    match searchFrom tryDateAt text with
    | some g => g
    | none => chars "Date N/A"
  let inventors :=
    match searchFrom tryInventorsAt text with
    | some g => replaceNlSpace (pyStrip g)
    | none => chars "Inventors N/A"
  let abstract :=
    match searchFrom tryAbstractAt text with
    | some g => pyStrip g
    | none => chars "Abstract N/A"
  ⟨title, number, date, inventors, abstract⟩

/-- parse_patent_info of Patent-anim2.py lines 115 to 139: the regular
expressions and the post-processing are character-for-character identical
to those of patent_text_extractor.py. -/
def parse_patent_info_anim2 (text : List Char) : PatentInfo :=
  let title0 :=
    match searchFrom tryTitleAt text with
    | some g => replaceNlSpace (pyStrip g)
    | none => chars "Title N/A"
  let title := lstripParen title0
  let number :=
    match searchFrom tryNumberAt text with
    | some m => m
    | none => chars "PATENT # N/A"
  let date :=
    match searchFrom tryDateAt text with
    | some g => g
    | none => chars "Date N/A"
  let inventors :=
    match searchFrom tryInventorsAt text with
    | some g => replaceNlSpace (pyStrip g)
    | none => chars "Inventors N/A"
  let abstract :=
    match searchFrom tryAbstractAt text with
    | some g => pyStrip g
    | none => chars "Abstract N/A"
  ⟨title, number, date, inventors, abstract⟩

/-- parse_patent_info of CVRT3.0.py lines 116 to 140: identical to the
other two except for the abstract pattern, which is `Abstract?\s*(...)`
(optional final t, no colon handling). -/
def parse_patent_info_cvrt (text : List Char) : PatentInfo :=
  let title0 :=
    match searchFrom tryTitleAt text with
    | some g => replaceNlSpace (pyStrip g)
    | none => chars "Title N/A"
  let title := lstripParen title0
  let number :=
    match searchFrom tryNumberAt text with
    | some m => m
    | none => chars "PATENT # N/A"
  let date :=
    match searchFrom tryDateAt text with
    | some g => g
    | none => chars "Date N/A"
  let inventors :=
    match searchFrom tryInventorsAt text with
    | some g => replaceNlSpace (pyStrip g)
    | none => chars "Inventors N/A"
  let abstract :=
    match searchFrom tryAbstractLegacyAt text with
    | some g => pyStrip g
    | none => chars "Abstract N/A"
  ⟨title, number, date, inventors, abstract⟩

/-! ## The page pipeline

convert_pdf_to_images and split_image of patent_text_extractor.py.
A PIL image is modelled by its pixel dimensions (the claims under
verification only concern dimensions, artifact naming, ordering and the
text concatenation; pixel content is abstracted away, and the OCR engine
is an arbitrary function parameter).  File persistence is an in-order
write log of (file name, artifact) pairs; the rendering engine outcome is
an Except value: convert_from_path either raises (the error case, which
propagates out of convert_pdf_to_images before any page is processed) or
returns the ordered page list. -/

/-- A PIL image, abstracted to its size. -/
structure PILImage where
  width : Nat
  height : Nat
deriving Repr, DecidableEq

/-- PIL Image.crop with an in-bounds box (left, top, right, bottom):
the result has width right minus left and height bottom minus top. -/
def crop (_img : PILImage) (left top right bottom : Nat) : PILImage :=
  ⟨right - left, bottom - top⟩

/-- split_image (patent_text_extractor.py lines 89 to 96): column_width is
the floor of width over two; the left crop is the box (0, 0, column_width,
height) and the right crop is (column_width, 0, width, height). -/
def split_image (image : PILImage) : PILImage × PILImage :=
  let column_width := image.width / 2
  let left_bbox := (0, 0, column_width, image.height)
  let right_bbox := (column_width, 0, image.width, image.height)
  (crop image left_bbox.1 left_bbox.2.1 left_bbox.2.2.1 left_bbox.2.2.2,
   crop image right_bbox.1 right_bbox.2.1 right_bbox.2.2.1 right_bbox.2.2.2)

/-- A persisted artifact: an image file or a UTF-8 text file. -/
inductive Artifact
  | imageFile (img : PILImage)
  | textFile (content : List Char)
deriving Repr, DecidableEq

/-- Failure of the external rendering capability (pdf2image
convert_from_path raising: undecodable document or missing poppler). -/
inductive RenderError
  | undecodable
  | rendererUnavailable
deriving Repr, DecidableEq

/-- Decimal digit character. -/
def digitChar (d : Nat) : Char := Char.ofNat (48 + d)

/-- Decimal rendering of a natural number, as produced by a Python
f-string for a nonnegative int. -/
def toDec (n : Nat) : List Char :=
  if _h : n < 10 then [digitChar n]
  else toDec (n / 10) ++ [digitChar (n % 10)]
  termination_by n
  decreasing_by exact Nat.div_lt_self (by omega) (by omega)

/-- Decimal reading, inverse of `toDec` (proof helper). -/
def fromDec (s : List Char) : Nat :=
  s.foldl (fun a c => a * 10 + (c.toNat - 48)) 0

/-- The f-string page_i.png. -/
def pngName (i : Nat) : List Char := chars "page_" ++ toDec i ++ chars ".png"

/-- The f-string page_i_col1.png. -/
def col1Name (i : Nat) : List Char := chars "page_" ++ toDec i ++ chars "_col1.png"

/-- The f-string page_i_col2.png. -/
def col2Name (i : Nat) : List Char := chars "page_" ++ toDec i ++ chars "_col2.png"

/-- The f-string page_i.txt. -/
def txtName (i : Nat) : List Char := chars "page_" ++ toDec i ++ chars ".txt"

/-- The combined text of one page (patent_text_extractor.py line 126):
recognized left-column text, two newlines, recognized right-column
text. -/
def combinedTextOf (recognize : PILImage → List Char) (image : PILImage) : List Char :=
  recognize (split_image image).1 ++ chars "\n\n" ++ recognize (split_image image).2

/-- Body of the page loop of convert_pdf_to_images
(patent_text_extractor.py lines 118 to 130) for loop index `i`: the four
file writes of the page in program order (full image, left column, right
column, text), the full-image path appended to image_paths and the
combined text appended to texts. -/
def processPage (recognize : PILImage → List Char) (i : Nat) (image : PILImage) :
    List (List Char × Artifact) × List Char × List Char :=
  let lr := split_image image
  let combined_text := combinedTextOf recognize image
  ([(pngName i, .imageFile image),
    (col1Name i, .imageFile lr.1),
    (col2Name i, .imageFile lr.2),
    (txtName i, .textFile combined_text)],
   pngName i, combined_text)

/-- The page loop `for i, image in enumerate(images, start=1)`: pages are
processed strictly in order, the loop counter starting at `start`. -/
def pageLoop (recognize : PILImage → List Char) :
    Nat → List PILImage → List (List Char × Artifact) × List (List Char) × List (List Char)
  | _, [] => ([], [], [])
  | i, image :: rest =>
    let p := processPage recognize i image
    let acc := pageLoop recognize (i + 1) rest
    (p.1 ++ acc.1, p.2.1 :: acc.2.1, p.2.2 :: acc.2.2)

/-- convert_pdf_to_images (patent_text_extractor.py lines 105 to 132).
If convert_from_path fails, the exception propagates before the loop runs:
the write log is empty and no list is returned.  On success the loop runs
over the pages with 1-based indices and the function returns
(image_paths, texts). -/
def convert_pdf_to_images (render : Except RenderError (List PILImage))
    (recognize : PILImage → List Char) :
    List (List Char × Artifact) × Except RenderError (List (List Char) × List (List Char)) :=
  match render with
  | .error e => ([], .error e)
  | .ok images =>
    let acc := pageLoop recognize 1 images
    (acc.1, .ok (acc.2.1, acc.2.2))

/-- The write log of a successful run. -/
def runWrites (recognize : PILImage → List Char) (images : List PILImage) :
    List (List Char × Artifact) :=
  (convert_pdf_to_images (.ok images) recognize).1

/-- The returned image paths of a successful run. -/
def runPaths (recognize : PILImage → List Char) (images : List PILImage) : List (List Char) :=
  match (convert_pdf_to_images (.ok images) recognize).2 with
  | .ok pr => pr.1
  | .error _ => []

/-- The returned texts of a successful run. -/
def runTexts (recognize : PILImage → List Char) (images : List PILImage) : List (List Char) :=
  match (convert_pdf_to_images (.ok images) recognize).2 with
  | .ok pr => pr.2
  | .error _ => []

/-! ## Occurrence predicates used to state the claims -/

/-- Does `g` hold at some position of the text (any suffix, the empty
final suffix included)? -/
def occursFrom (g : List Char → Bool) : List Char → Bool
  | [] => g []
  | s@(_ :: r) => g s || occursFrom g r

/-- Does the literal `p` occur somewhere in the text? -/
def containsLit (p : List Char) (s : List Char) : Bool :=
  occursFrom (fun t => (stripLit p t).isSome) s

/-- Does the section marker (54) start at this position? -/
def marker54At (s : List Char) : Bool :=
  (stripLit (chars "(54)") s).isSome

/-- Does an inventors heading (Inventor or Inventors, any capitalization,
followed by a colon) start at this position? -/
def invHeadAt (s : List Char) : Bool :=
  (stripLitCI (chars "inventors:") s).isSome || (stripLitCI (chars "inventor:") s).isSome

/-- Does an inventors heading occur somewhere in the text? -/
def invHeadOccurs : List Char → Bool := occursFrom invHeadAt

/-- Modelled from the spec and the amended claim C4: the tail
comma, three digits, comma, three digits, one whitespace character, one
word character, one digit, written declaratively. -/
def numTailShape (s : List Char) : Bool :=
  match s with
  | ',' :: a :: b :: c :: ',' :: d :: e :: f :: w :: x :: y :: _ =>
    isDigitCh a && isDigitCh b && isDigitCh c && isDigitCh d && isDigitCh e &&
      isDigitCh f && isSpaceCh w && isWordCh x && isDigitCh y
  | _ => false

/-- Modelled from the amended claim C4: the number pattern (US, one
whitespace character, one to three digits, then `numTailShape`) begins at
this position. -/
def amendedNumberAt (s : List Char) : Bool :=
  match s with
  | 'U' :: 'S' :: w :: a :: r =>
    isSpaceCh w && isDigitCh a &&
      (numTailShape r ||
        match r with
        | b :: r2 =>
          isDigitCh b &&
            (numTailShape r2 ||
              match r2 with
              | c :: r3 => isDigitCh c && numTailShape r3
              | [] => false)
        | [] => false)
  | _ => false

/-- Does the amended number pattern occur somewhere in the text? -/
def amendedNumberOccurs : List Char → Bool := occursFrom amendedNumberAt

/-- Modelled from the claim text of C4 as stated: the tail with a literal
space character and one LETTER (not an arbitrary word character) before
the final digit. -/
def claimNumTailShape (s : List Char) : Bool :=
  match s with
  | ',' :: a :: b :: c :: ',' :: d :: e :: f :: ' ' :: x :: y :: _ =>
    isDigitCh a && isDigitCh b && isDigitCh c && isDigitCh d && isDigitCh e &&
      isDigitCh f && x.isAlpha && isDigitCh y
  | _ => false

/-- Modelled from the claim text of C4 as stated: US, a space, one to
three digits, then `claimNumTailShape`. -/
def claimNumberAt (s : List Char) : Bool :=
  match s with
  | 'U' :: 'S' :: ' ' :: a :: r =>
    isDigitCh a &&
      (claimNumTailShape r ||
        match r with
        | b :: r2 =>
          isDigitCh b &&
            (claimNumTailShape r2 ||
              match r2 with
              | c :: r3 => isDigitCh c && claimNumTailShape r3
              | [] => false)
        | [] => false)
  | _ => false

/-- Does the number pattern, as literally stated in claim C4, occur
somewhere in the text? -/
def claimNumberOccurs : List Char → Bool := occursFrom claimNumberAt

/-! ## Helper lemmas about the regex building blocks -/

theorem stripLit_append (p r : List Char) : stripLit p (p ++ r) = some r := by
  induction p with
  | nil => rfl
  | cons c cs ih => simp [stripLit, ih]

theorem stripLit_some {p s r : List Char} (h : stripLit p s = some r) : s = p ++ r := by
  induction p generalizing s with
  | nil =>
    have : s = r := by simpa [stripLit] using h
    simp [this]
  | cons c cs ih =>
    cases s with
    | nil => simp [stripLit] at h
    | cons a as =>
      simp only [stripLit] at h
      split at h
      · next heq => simp [heq, ih h]
      · exact absurd h (by simp)

theorem stripLitCI_append_of {p a : List Char}
    (h : a.map Char.toLower = p.map Char.toLower) (r : List Char) :
    stripLitCI p (a ++ r) = some r := by
  induction p generalizing a with
  | nil =>
    have : a = [] := by simpa using h
    simp [this, stripLitCI]
  | cons c cs ih =>
    rw [List.map_cons] at h
    obtain ⟨x, a1, rfl, hx, ha1⟩ := List.map_eq_cons_iff.mp h
    simp [stripLitCI, hx, ih ha1]

theorem stripLitCI_comp {p q s r r2 : List Char}
    (h1 : stripLitCI p s = some r) (h2 : stripLitCI q r = some r2) :
    stripLitCI (p ++ q) s = some r2 := by
  induction p generalizing s with
  | nil =>
    have : s = r := by simpa [stripLitCI] using h1
    simpa [this] using h2
  | cons c cs ih =>
    cases s with
    | nil => simp [stripLitCI] at h1
    | cons a as =>
      simp only [stripLitCI, List.cons_append] at h1 ⊢
      split at h1
      · next heq =>
        rw [if_pos heq]
        exact ih h1
      · exact absurd h1 (by simp)

theorem occursFrom_eq_false_iff (g : List Char → Bool) (t : List Char) :
    occursFrom g t = false ↔ ∀ i, g (t.drop i) = false := by
  induction t with
  | nil =>
    simp only [occursFrom, List.drop_nil]
    exact ⟨fun h _ => h, fun h => h 0⟩
  | cons c r ih =>
    simp only [occursFrom, Bool.or_eq_false_iff]
    constructor
    · rintro ⟨h0, hrec⟩ i
      cases i with
      | zero => exact h0
      | succ i => exact (ih.mp hrec) i
    · intro h
      exact ⟨h 0, ih.mpr fun i => h (i + 1)⟩

theorem occursFrom_true_of_drop {g : List Char → Bool} {t : List Char} {n : Nat}
    (h : g (t.drop n) = true) : occursFrom g t = true := by
  by_contra hc
  have hf : occursFrom g t = false := by
    cases ho : occursFrom g t
    · rfl
    · exact absurd ho hc
  exact absurd h (by simp [(occursFrom_eq_false_iff g t).mp hf n])

theorem occursFrom_cons {g : List Char → Bool} {t : List Char} (c : Char)
    (h : occursFrom g t = true) : occursFrom g (c :: t) = true := by
  simp [occursFrom, h]

theorem occursFrom_dropWhile {g : List Char → Bool} {p : Char → Bool} {t : List Char}
    (h : occursFrom g (t.dropWhile p) = true) : occursFrom g t = true := by
  induction t with
  | nil => simpa using h
  | cons c r ih =>
    rw [List.dropWhile_cons] at h
    split at h
    · exact occursFrom_cons c (ih h)
    · exact h

theorem occursFrom_append {g : List Char → Bool} (pre : List Char) {t : List Char}
    (h : occursFrom g t = true) : occursFrom g (pre ++ t) = true := by
  induction pre with
  | nil => simpa using h
  | cons c p ih => exact occursFrom_cons c ih

theorem searchFrom_eq_none_of (f : List Char → Option α) (t : List Char)
    (h : ∀ i, f (t.drop i) = none) : searchFrom f t = none := by
  induction t with
  | nil => simpa using h 0
  | cons c r ih =>
    have h0 : f (c :: r) = none := by simpa using h 0
    simp only [searchFrom, h0]
    exact ih fun i => by simpa using h (i + 1)

theorem searchFrom_append (f : List Char → Option α) (pre rest : List Char)
    (h : ∀ i, i < pre.length → f ((pre ++ rest).drop i) = none) :
    searchFrom f (pre ++ rest) = searchFrom f rest := by
  induction pre with
  | nil => rfl
  | cons c p ih =>
    have h0 : f (c :: (p ++ rest)) = none := by simpa using h 0 (by simp)
    simp only [List.cons_append, searchFrom, List.append_eq, h0]
    exact ih fun i hi => by simpa using h (i + 1) (by simpa using Nat.succ_lt_succ hi)

theorem searchFrom_isSome_iff (f : List Char → Option α) (g : List Char → Bool)
    (hfg : ∀ s, (f s).isSome = g s) (t : List Char) :
    (searchFrom f t).isSome = occursFrom g t := by
  induction t with
  | nil => simpa [searchFrom, occursFrom] using hfg []
  | cons c r ih =>
    simp only [searchFrom, occursFrom, ← hfg]
    cases hf : f (c :: r) with
    | some v => simp [hf]
    | none => simp [hf, ih, ← hfg]

theorem searchFrom_some_drop {f : List Char → Option α} {t : List Char} {v : α}
    (h : searchFrom f t = some v) : ∃ n, f (t.drop n) = some v := by
  induction t with
  | nil => exact ⟨0, by simpa [searchFrom] using h⟩
  | cons c r ih =>
    simp only [searchFrom] at h
    cases hf : f (c :: r) with
    | some w =>
      rw [hf] at h
      exact ⟨0, by simpa [hf] using h⟩
    | none =>
      rw [hf] at h
      obtain ⟨n, hn⟩ := ih h
      exact ⟨n + 1, by simpa using hn⟩

theorem captureUntil_append (term : List Char → Bool) (bs tail : List Char)
    (h : ∀ k, k < bs.length → term (bs.drop k ++ tail) = false)
    (ht : tail = [] ∨ term tail = true) :
    captureUntil term (bs ++ tail) = bs := by
  induction bs with
  | nil =>
    rcases ht with h1 | h1
    · simp [h1, captureUntil]
    · cases tail with
      | nil => rfl
      | cons c cs => simp [captureUntil, h1]
  | cons b bs ih =>
    have h0 : term (b :: (bs ++ tail)) = false := by simpa using h 0 (by simp)
    simp only [List.cons_append, captureUntil, List.append_eq, h0, Bool.false_eq_true,
      if_false, List.cons.injEq, true_and]
    exact ih fun k hk => by simpa using h (k + 1) (by simpa using Nat.succ_lt_succ hk)

theorem dropWhile_append_all {p : Char → Bool} {ws : List Char} (h : ws.all p = true)
    (x : List Char) : (ws ++ x).dropWhile p = x.dropWhile p := by
  induction ws with
  | nil => rfl
  | cons c cs ih =>
    rw [List.all_cons, Bool.and_eq_true] at h
    simp [List.dropWhile_cons, h.1, ih h.2]

theorem wsLazySpan_decomp (term : List Char → Bool) (ws : List Char) (b : Char)
    (bs tail : List Char) (hws : ws.all isSpaceCh = true) (hb : isSpaceCh b = false)
    (hin : ∀ k, k < bs.length → term (bs.drop k ++ tail) = false)
    (ht : tail = [] ∨ term tail = true) :
    wsLazySpan term (ws ++ (b :: bs) ++ tail) = some (b :: bs) := by
  have hdw : (ws ++ (b :: bs) ++ tail).dropWhile isSpaceCh = b :: (bs ++ tail) := by
    rw [List.append_assoc, dropWhile_append_all hws]
    simp [List.dropWhile_cons, hb]
  unfold wsLazySpan
  rw [hdw]
  simp only []
  rw [captureUntil_append term bs tail hin ht]

theorem occursFrom_here {g : List Char → Bool} {t : List Char} (h : g t = true) :
    occursFrom g t = true := by
  cases t with
  | nil => simpa [occursFrom] using h
  | cons c r => simp [occursFrom, h]

theorem occursFrom_drop_lift {g : List Char → Bool} {t : List Char} {n : Nat}
    (h : occursFrom g (t.drop n) = true) : occursFrom g t = true := by
  by_contra hc
  have hf : occursFrom g t = false := by
    cases ho : occursFrom g t
    · rfl
    · exact absurd ho hc
  have hall := (occursFrom_eq_false_iff g t).mp hf
  have : occursFrom g (t.drop n) = false := by
    apply (occursFrom_eq_false_iff g (t.drop n)).mpr
    intro j
    rw [List.drop_drop, Nat.add_comm]
    exact hall (j + n)
  exact absurd h (by simp [this])

theorem searchFrom_cons_some {f : List Char → Option α} {c : Char} {t : List Char} {v : α}
    (h : f (c :: t) = some v) : searchFrom f (c :: t) = some v := by
  simp [searchFrom, h]

theorem tryTitleAt_eq_none {s : List Char} (h : marker54At s = false) : tryTitleAt s = none := by
  unfold marker54At at h
  unfold tryTitleAt
  cases hs : stripLit (chars "(54)") s with
  | none => rfl
  | some r => rw [hs] at h; simp at h

theorem tryTitleAt_marker (rest : List Char) :
    tryTitleAt (chars "(54)" ++ rest) = wsLazySpan termMarkerOrBlank rest := by
  unfold tryTitleAt
  rw [stripLit_append]
  rfl

theorem tryInventorsAt_eq_none {s : List Char} (h : invHeadAt s = false) :
    tryInventorsAt s = none := by
  rw [invHeadAt, Bool.or_eq_false_iff] at h
  obtain ⟨h1, h2⟩ := h
  have h1' : stripLitCI (chars "inventors:") s = none := by
    cases hx : stripLitCI (chars "inventors:") s with
    | none => rfl
    | some r => rw [hx] at h1; simp at h1
  have h2' : stripLitCI (chars "inventor:") s = none := by
    cases hx : stripLitCI (chars "inventor:") s with
    | none => rfl
    | some r => rw [hx] at h2; simp at h2
  unfold tryInventorsAt
  cases h8 : stripLitCI (chars "inventor") s with
  | none => rfl
  | some r =>
    have hwS : ((stripLitCI (chars "s") r).bind fun r2 =>
        (stripLitCI (chars ":") r2).bind (wsLazySpan termMarkerOrBlank)) = none := by
      cases hs2 : stripLitCI (chars "s") r with
      | none => rfl
      | some r2 =>
        cases hc : stripLitCI (chars ":") r2 with
        | none => simp [hc]
        | some r3 =>
          exfalso
          have he : chars "inventor" ++ (chars "s" ++ chars ":") = chars "inventors:" := rfl
          have hx := stripLitCI_comp h8 (stripLitCI_comp hs2 hc)
          rw [he] at hx
          rw [hx] at h1'
          simp at h1'
    have hwC : (stripLitCI (chars ":") r).bind (wsLazySpan termMarkerOrBlank) = none := by
      cases hc : stripLitCI (chars ":") r with
      | none => rfl
      | some rc =>
        exfalso
        have he : chars "inventor" ++ chars ":" = chars "inventor:" := rfl
        have hx := stripLitCI_comp h8 hc
        rw [he] at hx
        rw [hx] at h2'
        simp at h2'
    simp [hwS, hwC]

theorem tryInventorsAt_heading (hd8 opt rest : List Char)
    (h8 : hd8.map Char.toLower = chars "inventor")
    (hopt : opt = [] ∨ ∃ c, opt = [c] ∧ c.toLower = 's') :
    tryInventorsAt (hd8 ++ (opt ++ (chars ":" ++ rest)))
      = wsLazySpan termMarkerOrBlank rest := by
  have h8' : hd8.map Char.toLower = (chars "inventor").map Char.toLower := by
    rw [h8]; rfl
  rcases hopt with rfl | ⟨c, rfl, hcl⟩
  · have e0 : ([] : List Char) ++ (chars ":" ++ rest) = ':' :: rest := rfl
    rw [e0]
    have e1 : stripLitCI (chars "inventor") (hd8 ++ (':' :: rest)) = some (':' :: rest) :=
      stripLitCI_append_of h8' _
    unfold tryInventorsAt
    rw [e1]
    have eS : stripLitCI (chars "s") (':' :: rest) = none := rfl
    have eC : stripLitCI (chars ":") (':' :: rest) = some rest := rfl
    simp [eS, eC]
  · have e0 : [c] ++ (chars ":" ++ rest) = c :: ':' :: rest := rfl
    rw [e0]
    have e1 : stripLitCI (chars "inventor") (hd8 ++ (c :: ':' :: rest))
        = some (c :: ':' :: rest) := stripLitCI_append_of h8' _
    unfold tryInventorsAt
    rw [e1]
    have eS : stripLitCI (chars "s") (c :: ':' :: rest) = some (':' :: rest) := by
      show stripLitCI ['s'] (c :: ':' :: rest) = some (':' :: rest)
      have : Char.toLower 's' = 's' := rfl
      simp [stripLitCI, this, hcl]
    have eC2 : stripLitCI (chars ":") (':' :: rest) = some rest := rfl
    have eCc : stripLitCI (chars ":") (c :: ':' :: rest) = none := by
      show stripLitCI [':'] (c :: ':' :: rest) = none
      have h1 : Char.toLower ':' = ':' := rfl
      have h2 : ¬ (Char.toLower c = ':') := by rw [hcl]; decide
      simp [stripLitCI, h1, h2]
    simp only [eS, Option.some_bind, eC2, eCc, Option.none_bind]
    cases hw : wsLazySpan termMarkerOrBlank rest <;> simp [hw]

theorem tryDateAt_some_contains {s g : List Char} (h : tryDateAt s = some g) :
    containsLit (chars "Date of Patent:") s = true := by
  unfold tryDateAt at h
  cases h1 : stripLit (chars "(45)") s with
  | none => rw [h1] at h; simp at h
  | some r1 =>
    rw [h1] at h
    simp only [Option.some_bind] at h
    cases h2 : stripLit (chars "Date of Patent:") (r1.dropWhile isSpaceCh) with
    | none => rw [h2] at h; simp at h
    | some r3 =>
      have hc1 : containsLit (chars "Date of Patent:") (r1.dropWhile isSpaceCh) = true := by
        unfold containsLit
        exact occursFrom_here (by simp [h2])
      have hc2 : containsLit (chars "Date of Patent:") r1 = true := occursFrom_dropWhile hc1
      rw [stripLit_some h1]
      exact occursFrom_append _ hc2

/-! ## Helper lemmas about the number rule -/

theorem exactDigits_some : ∀ {n : Nat} {s d rest : List Char},
    exactDigits n s = some (d, rest) →
    s = d ++ rest ∧ d.length = n ∧ d.all isDigitCh = true := by
  intro n
  induction n with
  | zero =>
    intro s d rest h
    simp only [exactDigits, Option.some.injEq, Prod.mk.injEq] at h
    obtain ⟨h1, h2⟩ := h
    simp [← h1, ← h2]
  | succ n ih =>
    intro s d rest h
    cases s with
    | nil => simp [exactDigits] at h
    | cons c cs =>
      simp only [exactDigits] at h
      split at h
      · next hdig =>
        cases he : exactDigits n cs with
        | none => rw [he] at h; simp at h
        | some p =>
          obtain ⟨p1, p2⟩ := p
          rw [he] at h
          simp only [Option.map_some', Option.some.injEq, Prod.mk.injEq] at h
          obtain ⟨h1, h2⟩ := h
          obtain ⟨hs, hlen, hdigs⟩ := ih he
          refine ⟨?_, ?_, ?_⟩
          · simp [← h1, ← h2, hs]
          · simp [← h1, hlen]
          · simp [← h1, List.all_cons, hdig, hdigs]
      · simp at h

theorem numTail_some_full : ∀ {s t : List Char}, numTail s = some t →
    numTailShape s = true ∧ ∃ q, s = t ++ q := by
  intro s t h
  unfold numTail at h
  split at h
  · next r =>
    cases he : exactDigits 3 r with
    | none => rw [he] at h; simp at h
    | some p =>
      obtain ⟨p1, p2⟩ := p
      rw [he] at h
      simp only [Option.some_bind] at h
      obtain ⟨hr, hlen, hdig⟩ := exactDigits_some he
      rcases p1 with _ | ⟨a, _ | ⟨b, _ | ⟨c, _ | ⟨a4, t4⟩⟩⟩⟩ <;> simp at hlen
      simp only [List.cons_append, List.nil_append] at hr
      subst hr
      split at h
      · next r2 =>
        cases he2 : exactDigits 3 r2 with
        | none => rw [he2] at h; simp at h
        | some q0 =>
          obtain ⟨q1, q2⟩ := q0
          rw [he2] at h
          simp only [Option.some_bind] at h
          obtain ⟨hr2, hlen2, hdig2⟩ := exactDigits_some he2
          rcases q1 with _ | ⟨d, _ | ⟨e, _ | ⟨f, _ | ⟨d4, t5⟩⟩⟩⟩ <;> simp at hlen2
          simp only [List.cons_append, List.nil_append] at hr2
          subst hr2
          split at h
          · next w x y rest =>
            split at h
            · next hcond =>
              simp only [Option.some.injEq] at h
              simp only [List.all_cons, List.all_nil, Bool.and_eq_true,
                Bool.and_true] at hdig hdig2
              simp only [Bool.and_eq_true] at hcond
              constructor
              · simp [numTailShape, hdig.1, hdig.2.1, hdig.2.2, hdig2.1, hdig2.2.1,
                  hdig2.2.2, hcond.1.1, hcond.1.2, hcond.2]
              · exact ⟨rest, by simp [← h]⟩
            · simp at h
          · simp at h
      · simp at h
  · simp at h

theorem numTail_isSome_of_shape : ∀ {s : List Char}, numTailShape s = true →
    (numTail s).isSome = true := by
  intro s h
  unfold numTailShape at h
  split at h
  · next a b c d e f w x y rest =>
    simp only [Bool.and_eq_true] at h
    obtain ⟨⟨⟨⟨⟨⟨⟨⟨ha, hb⟩, hc⟩, hd⟩, he⟩, hf⟩, hw⟩, hx⟩, hy⟩ := h
    have e3 : exactDigits 3 (a :: b :: c :: (',' :: d :: e :: f :: w :: x :: y :: rest))
        = some ([a, b, c], ',' :: d :: e :: f :: w :: x :: y :: rest) := by
      simp [exactDigits, ha, hb, hc]
    have e3b : exactDigits 3 (d :: e :: f :: (w :: x :: y :: rest))
        = some ([d, e, f], w :: x :: y :: rest) := by
      simp [exactDigits, hd, he, hf]
    simp [numTail, e3, e3b, hw, hx, hy]
  · exact absurd h (by simp)

theorem attempt_some_full {n : Nat} {w : Char} {r0 m : List Char}
    (h : ((exactDigits n r0).bind fun p =>
        (numTail p.2).map fun t => 'U' :: 'S' :: w :: (p.1 ++ t)) = some m) :
    (∃ q, 'U' :: 'S' :: w :: r0 = m ++ q) ∧
    (∃ t2, m = 'U' :: 'S' :: w :: t2) ∧
    ∃ dd rest2, r0 = dd ++ rest2 ∧ dd.length = n ∧ dd.all isDigitCh = true ∧
      numTailShape rest2 = true := by
  cases he : exactDigits n r0 with
  | none => rw [he] at h; simp at h
  | some p =>
    obtain ⟨p1, p2⟩ := p
    rw [he] at h
    simp only [Option.some_bind] at h
    cases ht : numTail p2 with
    | none => rw [ht] at h; simp at h
    | some t =>
      rw [ht] at h
      simp only [Option.map_some', Option.some.injEq] at h
      obtain ⟨hshape, q, hq⟩ := numTail_some_full ht
      obtain ⟨hr0, hlen, hdig⟩ := exactDigits_some he
      refine ⟨⟨q, ?_⟩, ⟨p1 ++ t, h.symm⟩, p1, p2, hr0, hlen, hdig, hshape⟩
      rw [← h, hr0, hq]
      simp

theorem exactDigits_of_digits : ∀ (d r : List Char), d.all isDigitCh = true →
    exactDigits d.length (d ++ r) = some (d, r) := by
  intro d
  induction d with
  | nil => intro r _; rfl
  | cons c cs ih =>
    intro r h
    rw [List.all_cons, Bool.and_eq_true] at h
    simp [exactDigits, h.1, ih r h.2]

theorem attempt_isSome {n : Nat} {w : Char} {dd rest2 : List Char}
    (hlen : dd.length = n) (hdig : dd.all isDigitCh = true)
    (hshape : numTailShape rest2 = true) :
    (((exactDigits n (dd ++ rest2)).bind fun p =>
        (numTail p.2).map fun t => 'U' :: 'S' :: w :: (p.1 ++ t))).isSome = true := by
  have he : exactDigits n (dd ++ rest2) = some (dd, rest2) := by
    rw [← hlen]
    exact exactDigits_of_digits dd rest2 hdig
  rw [he]
  simp only [Option.some_bind, Option.isSome_map']
  exact numTail_isSome_of_shape hshape

theorem isSome_of_amended : ∀ {s : List Char}, amendedNumberAt s = true →
    (tryNumberAt s).isSome = true := by
  intro s h
  unfold amendedNumberAt at h
  split at h
  · next w a r =>
    simp only [Bool.and_eq_true] at h
    obtain ⟨⟨hw, ha⟩, hor⟩ := h
    simp only [tryNumberAt]
    rw [if_pos hw]
    cases hA3 : (exactDigits 3 (a :: r)).bind fun p =>
        (numTail p.2).map fun t => 'U' :: 'S' :: w :: (p.1 ++ t) with
    | some m => simp [hA3]
    | none =>
      cases hA2 : (exactDigits 2 (a :: r)).bind fun p =>
          (numTail p.2).map fun t => 'U' :: 'S' :: w :: (p.1 ++ t) with
      | some m => simp [hA3, hA2]
      | none =>
        simp only [hA3, hA2]
        rw [Bool.or_eq_true] at hor
        rcases hor with h1 | h1
        · have hx := @attempt_isSome 1 w [a] r rfl
            (by simp [List.all_cons, ha]) h1
          simpa using hx
        · split at h1
          · next b r2 =>
            simp only [Bool.and_eq_true] at h1
            obtain ⟨hb, hor2⟩ := h1
            rw [Bool.or_eq_true] at hor2
            rcases hor2 with h2 | h2
            · have hx := @attempt_isSome 2 w [a, b] r2 rfl
                (by simp [List.all_cons, ha, hb]) h2
              simp only [List.cons_append, List.nil_append] at hx
              rw [hA2] at hx
              simp at hx
            · split at h2
              · next c r3 =>
                simp only [Bool.and_eq_true] at h2
                obtain ⟨hc, h3⟩ := h2
                have hx := @attempt_isSome 3 w [a, b, c] r3
                  rfl (by simp [List.all_cons, ha, hb, hc]) h3
                simp only [List.cons_append, List.nil_append] at hx
                rw [hA3] at hx
                simp at hx
              · simp at h2
          · simp at h1
  · exact absurd h (by simp)

theorem amended_of_digits_shape {w : Char} {dd rest2 : List Char}
    (hw : isSpaceCh w = true) (hlen : 1 ≤ dd.length ∧ dd.length ≤ 3)
    (hdig : dd.all isDigitCh = true) (hshape : numTailShape rest2 = true) :
    amendedNumberAt ('U' :: 'S' :: w :: (dd ++ rest2)) = true := by
  rcases dd with _ | ⟨a, _ | ⟨b, _ | ⟨c, _ | ⟨d4, t⟩⟩⟩⟩
  · simp at hlen
  · simp only [List.all_cons, List.all_nil, Bool.and_true] at hdig
    simp [amendedNumberAt, hw, hdig, hshape]
  · simp only [List.all_cons, List.all_nil, Bool.and_eq_true, Bool.and_true] at hdig
    simp [amendedNumberAt, hw, hdig.1, hdig.2, hshape]
  · simp only [List.all_cons, List.all_nil, Bool.and_eq_true, Bool.and_true] at hdig
    simp [amendedNumberAt, hw, hdig.1, hdig.2.1, hdig.2.2, hshape]
  · simp at hlen

theorem tryNumberAt_some_full : ∀ {s m : List Char}, tryNumberAt s = some m →
    amendedNumberAt s = true ∧ (∃ q, s = m ++ q) ∧ ∃ w t2, m = 'U' :: 'S' :: w :: t2 := by
  intro s m h
  unfold tryNumberAt at h
  split at h
  · next w r0 =>
    split at h
    · next hw =>
      have key : ∃ n, 1 ≤ n ∧ n ≤ 3 ∧
          ((exactDigits n r0).bind fun p =>
            (numTail p.2).map fun t => 'U' :: 'S' :: w :: (p.1 ++ t)) = some m := by
        split at h
        · next m3 heq =>
          simp only [Option.some.injEq] at h
          exact ⟨3, by omega, by omega, by rw [heq, h]⟩
        · next heq3 =>
          split at h
          · next m2 heq =>
            simp only [Option.some.injEq] at h
            exact ⟨2, by omega, by omega, by rw [heq, h]⟩
          · next heq2 => exact ⟨1, by omega, by omega, h⟩
      obtain ⟨n, hn1, hn3, hA⟩ := key
      obtain ⟨⟨q, hq⟩, ⟨t2, hm⟩, dd, rest2, hr0, hlen, hdig, hshape⟩ := attempt_some_full hA
      refine ⟨?_, ⟨q, hq⟩, w, t2, hm⟩
      rw [hr0]
      exact amended_of_digits_shape hw ⟨by omega, by omega⟩ hdig hshape
    · simp at h
  all_goals simp at h

theorem tryNumberAt_isSome (s : List Char) : (tryNumberAt s).isSome = amendedNumberAt s := by
  cases ho : tryNumberAt s with
  | some m =>
    have := (tryNumberAt_some_full ho).1
    simp [this]
  | none =>
    cases ha : amendedNumberAt s with
    | false => simp
    | true =>
      have := isSome_of_amended ha
      rw [ho] at this
      simp at this

theorem tryNumberAt_eq_none {s : List Char} (h : amendedNumberAt s = false) :
    tryNumberAt s = none := by
  cases ho : tryNumberAt s with
  | none => rfl
  | some m =>
    have := (tryNumberAt_some_full ho).1
    rw [this] at h
    simp at h

theorem digitChar_toNat : ∀ d, d < 10 → (digitChar d).toNat = 48 + d := by decide

theorem fromDec_append (l : List Char) (c : Char) :
    fromDec (l ++ [c]) = fromDec l * 10 + (c.toNat - 48) := by
  simp [fromDec, List.foldl_append]

theorem fromDec_toDec : ∀ n, fromDec (toDec n) = n := by
  intro n
  induction n using Nat.strong_induction_on with
  | _ n ih =>
    by_cases h : n < 10
    · rw [toDec, dif_pos h]
      have h1 : fromDec [digitChar n] = (digitChar n).toNat - 48 := by simp [fromDec]
      rw [h1, digitChar_toNat n h]
      omega
    · rw [toDec, dif_neg h, fromDec_append]
      have h1 := ih (n / 10) (Nat.div_lt_self (by omega) (by omega))
      have h2 := digitChar_toNat (n % 10) (Nat.mod_lt _ (by omega))
      rw [h1, h2]
      omega

theorem toDec_inj {m n : Nat} (h : toDec m = toDec n) : m = n := by
  have := congrArg fromDec h
  rwa [fromDec_toDec, fromDec_toDec] at this

theorem txtName_ne_pngName (i j : Nat) : txtName i ≠ pngName j := by
  intro h
  unfold txtName pngName at h
  rw [List.append_assoc, List.append_assoc] at h
  have h2 := List.append_cancel_left h
  have h3 := congrArg List.reverse h2
  rw [List.reverse_append, List.reverse_append] at h3
  rw [show (chars ".txt").reverse = 't' :: 'x' :: 't' :: '.' :: [] from rfl,
    show (chars ".png").reverse = 'g' :: 'n' :: 'p' :: '.' :: [] from rfl] at h3
  simp at h3

theorem txtName_ne_col1Name (i j : Nat) : txtName i ≠ col1Name j := by
  intro h
  unfold txtName col1Name at h
  rw [List.append_assoc, List.append_assoc] at h
  have h2 := List.append_cancel_left h
  have h3 := congrArg List.reverse h2
  rw [List.reverse_append, List.reverse_append] at h3
  rw [show (chars ".txt").reverse = 't' :: 'x' :: 't' :: '.' :: [] from rfl,
    show (chars "_col1.png").reverse
      = 'g' :: 'n' :: 'p' :: '.' :: '1' :: 'l' :: 'o' :: 'c' :: '_' :: [] from rfl] at h3
  simp at h3

theorem txtName_ne_col2Name (i j : Nat) : txtName i ≠ col2Name j := by
  intro h
  unfold txtName col2Name at h
  rw [List.append_assoc, List.append_assoc] at h
  have h2 := List.append_cancel_left h
  have h3 := congrArg List.reverse h2
  rw [List.reverse_append, List.reverse_append] at h3
  rw [show (chars ".txt").reverse = 't' :: 'x' :: 't' :: '.' :: [] from rfl,
    show (chars "_col2.png").reverse
      = 'g' :: 'n' :: 'p' :: '.' :: '2' :: 'l' :: 'o' :: 'c' :: '_' :: [] from rfl] at h3
  simp at h3

theorem txtName_inj {i j : Nat} (h : txtName i = txtName j) : i = j := by
  unfold txtName at h
  rw [List.append_assoc, List.append_assoc] at h
  exact toDec_inj (List.append_cancel_right (List.append_cancel_left h))

theorem pageLoop_eq (recognize : PILImage → List Char) :
    ∀ (start : Nat) (images : List PILImage),
      pageLoop recognize start images =
        ((((List.range' start images.length).zip images).map
            (fun p => (processPage recognize p.1 p.2).1)).flatten,
         (List.range' start images.length).map pngName,
         images.map (combinedTextOf recognize)) := by
  intro start images
  induction images generalizing start with
  | nil => rfl
  | cons img rest ih =>
    simp only [pageLoop, ih (start + 1), List.length_cons, List.range'_succ,
      List.zip_cons_cons, List.map_cons, List.flatten_cons]
    rfl

theorem pageLoop_lookup_txt (recognize : PILImage → List Char) :
    ∀ (images : List PILImage) (start k : Nat) (h : k < images.length),
      List.lookup (txtName (start + k)) (pageLoop recognize start images).1
        = some (.textFile (combinedTextOf recognize (images.get ⟨k, h⟩))) := by
  intro images
  induction images with
  | nil =>
    intro start k h
    exact absurd h (by simp)
  | cons img rest ih =>
    intro start k h
    cases k with
    | zero =>
      have e1 : (txtName start == pngName start) = false :=
        beq_eq_false_iff_ne.mpr (txtName_ne_pngName start start)
      have e2 : (txtName start == col1Name start) = false :=
        beq_eq_false_iff_ne.mpr (txtName_ne_col1Name start start)
      have e3 : (txtName start == col2Name start) = false :=
        beq_eq_false_iff_ne.mpr (txtName_ne_col2Name start start)
      have e4 : (txtName start == txtName start) = true := beq_self_eq_true _
      simp [pageLoop, processPage, List.lookup, e1, e2, e3, e4]
    | succ k =>
      have hk : k < rest.length := by simpa using h
      have e1 : (txtName (start + (k + 1)) == pngName start) = false :=
        beq_eq_false_iff_ne.mpr (txtName_ne_pngName _ start)
      have e2 : (txtName (start + (k + 1)) == col1Name start) = false :=
        beq_eq_false_iff_ne.mpr (txtName_ne_col1Name _ start)
      have e3 : (txtName (start + (k + 1)) == col2Name start) = false :=
        beq_eq_false_iff_ne.mpr (txtName_ne_col2Name _ start)
      have e4 : (txtName (start + (k + 1)) == txtName start) = false :=
        beq_eq_false_iff_ne.mpr (fun hx => by have := txtName_inj hx; omega)
      have hrec := ih (start + 1) k hk
      rw [show start + 1 + k = start + (k + 1) by omega] at hrec
      simp [pageLoop, processPage, List.lookup, e1, e2, e3, e4, hrec]

/-! ## Theorems -/

/-- C6: split_image returns a left crop of width the floor of half the
image width and a right crop of the remaining width, both of full image
height, so the two widths sum to the full width; there is no error path
and a zero-width image yields two zero-width crops. -/
theorem claim6_split_image_widths :
    ∀ image : PILImage,
      (split_image image).1.width = image.width / 2 ∧
      (split_image image).1.height = image.height ∧
      (split_image image).2.width = image.width - image.width / 2 ∧
      (split_image image).2.height = image.height ∧
      (split_image image).1.width + (split_image image).2.width = image.width ∧
      (∀ h : Nat, split_image ⟨0, h⟩ = (⟨0, h⟩, ⟨0, h⟩)) := by
  intro image
  refine ⟨rfl, rfl, rfl, rfl, ?_, ?_⟩
  · have := Nat.div_le_self image.width 2
    simp only [split_image, crop]
    omega
  · intro h
    simp [split_image, crop]

/-- C8: when rendering fails, convert_pdf_to_images aborts before page 1
is processed: the write log is empty (no per-page artifact) and the error
is propagated instead of any partial page-result sequence. -/
theorem claim8_render_error_no_artifacts :
    ∀ (recognize : PILImage → List Char) (e : RenderError),
      convert_pdf_to_images (.error e) recognize = ([], .error e) :=
  fun _ _ => rfl

/-- C9 counterexample: the three parse_patent_info functions do NOT agree
on every input.  On the text Abstract colon space X, the CVRT3.0.py
variant (pattern `Abstract?` with optional t and no colon) returns the
abstract colon-space-X while patent_text_extractor.py returns X. -/
theorem claim9_counterexample :
    (parse_patent_info_cvrt (chars "Abstract: X")).abstract = chars ": X" ∧
    (parse_patent_info (chars "Abstract: X")).abstract = chars "X" ∧
    parse_patent_info_cvrt (chars "Abstract: X") ≠ parse_patent_info (chars "Abstract: X") := by
  refine ⟨by decide, by decide, by decide⟩

/-- C9 amended: the Patent-anim2.py extractor agrees with
patent_text_extractor.py on all five fields for every input text, and the
CVRT3.0.py extractor agrees on title, number, date and inventors (its
abstract rule differs: optional final t and no colon consumption). -/
theorem claim9_amended_legacy_agreement :
    ∀ text : List Char,
      parse_patent_info_anim2 text = parse_patent_info text ∧
      (parse_patent_info_cvrt text).title = (parse_patent_info text).title ∧
      (parse_patent_info_cvrt text).number = (parse_patent_info text).number ∧
      (parse_patent_info_cvrt text).date = (parse_patent_info text).date ∧
      (parse_patent_info_cvrt text).inventors = (parse_patent_info text).inventors :=
  fun _ => ⟨rfl, rfl, rfl, rfl, rfl⟩

/-- C2 counterexample: the abstract field is NOT newline-collapsed: the
code applies only strip to the abstract capture, so an embedded newline
survives, contradicting the claim that every span-captured field has
newlines collapsed to spaces. -/
theorem claim2_counterexample :
    (parse_patent_info (chars "Abstract: a\nb")).abstract = chars "a\nb" ∧
    chars "a\nb" ≠ chars "a b" := by
  refine ⟨by decide, by decide⟩

/-- C4 counterexample: the code pattern uses a word character (backslash
w), not a letter, before the final digit.  On this text the pattern as
stated in the claim (one letter) occurs nowhere, so the claim as stated
predicts the fallback value, yet the code extracts a number. -/
theorem claim4_counterexample :
    claimNumberOccurs (chars "US 1,234,567 99") = false ∧
    (parse_patent_info (chars "US 1,234,567 99")).number = chars "US 1,234,567 99" ∧
    chars "US 1,234,567 99" ≠ chars "PATENT # N/A" := by
  refine ⟨by decide, by decide, by decide⟩

/-- C2 amended: when a span-capturing rule matches, the title is stripped,
has each newline replaced by a space and leading closing parentheses
removed; the inventors value is stripped and has each newline replaced by
a space; the abstract value is ONLY stripped, so an embedded newline is
preserved (the claim wrongly included the abstract in the
newline-collapsing post-processing). -/
theorem claim2_amended_postprocessing :
    ∀ text : List Char,
      (∀ g, searchFrom tryTitleAt text = some g →
        (parse_patent_info text).title = lstripParen (replaceNlSpace (pyStrip g))) ∧
      (∀ g, searchFrom tryInventorsAt text = some g →
        (parse_patent_info text).inventors = replaceNlSpace (pyStrip g)) ∧
      (∀ g, searchFrom tryAbstractAt text = some g →
        (parse_patent_info text).abstract = pyStrip g) ∧
      (parse_patent_info (chars "(54) a\nb")).title = chars "a b" ∧
      (parse_patent_info (chars "Inventors: x\ny")).inventors = chars "x y" ∧
      (parse_patent_info (chars "Abstract: a\nb")).abstract = chars "a\nb" ∧
      (parse_patent_info (chars "(54) ))a")).title = chars "a" := by
  intro text
  refine ⟨?_, ?_, ?_, by decide, by decide, by decide, by decide⟩
  · intro g hg
    simp [parse_patent_info, hg]
  · intro g hg
    simp [parse_patent_info, hg]
  · intro g hg
    simp [parse_patent_info, hg]

/-- Witness for the amended C2 at concrete inputs. -/
theorem claim2_amended_postprocessing_witness :
    (parse_patent_info (chars "(54) a\nb")).title
        = lstripParen (replaceNlSpace (pyStrip (chars "a\nb"))) ∧
    (parse_patent_info (chars "Inventors: x\ny")).inventors
        = replaceNlSpace (pyStrip (chars "x\ny")) ∧
    (parse_patent_info (chars "Abstract: a\nb")).abstract = pyStrip (chars "a\nb") :=
  ⟨(claim2_amended_postprocessing _).1 _ (by decide),
   (claim2_amended_postprocessing _).2.1 _ (by decide),
   (claim2_amended_postprocessing _).2.2.1 _ (by decide)⟩

/-- C3: the title is the text following the leftmost section marker (54)
(after the whitespace consumed by the backslash-s-star), terminated at
the earliest later position where a numeric section marker of the form
open-parenthesis two-digits close-parenthesis or a blank line starts, or
at the end of text; with no (54) marker anywhere the title is the
fallback.  The second conjunct is the claimed fallback case and the third
the claimed concrete example. -/
theorem claim3_title_rule :
    (∀ (pre ws : List Char) (b : Char) (bs tail : List Char),
      (∀ i, i < pre.length →
        marker54At ((pre ++ chars "(54)" ++ ws ++ (b :: bs) ++ tail).drop i) = false) →
      ws.all isSpaceCh = true →
      isSpaceCh b = false →
      (∀ k, k < bs.length → termMarkerOrBlank (bs.drop k ++ tail) = false) →
      (tail = [] ∨ termMarkerOrBlank tail = true) →
      (parse_patent_info (pre ++ chars "(54)" ++ ws ++ (b :: bs) ++ tail)).title
        = lstripParen (replaceNlSpace (pyStrip (b :: bs)))) ∧
    (∀ text, occursFrom marker54At text = false →
      (parse_patent_info text).title = chars "Title N/A") ∧
    (parse_patent_info (chars "(54) A Widget Apparatus\n\n(57) Abstract ...")).title
      = chars "A Widget Apparatus" := by
  refine ⟨?_, ?_, by decide⟩
  · intro pre ws b bs tail hpre hws hb hin ht
    have hassoc : pre ++ chars "(54)" ++ ws ++ (b :: bs) ++ tail
        = pre ++ (chars "(54)" ++ (ws ++ (b :: bs) ++ tail)) := by
      simp [List.append_assoc]
    have hsearch : searchFrom tryTitleAt (pre ++ chars "(54)" ++ ws ++ (b :: bs) ++ tail)
        = some (b :: bs) := by
      rw [hassoc]
      rw [searchFrom_append tryTitleAt pre _ ?hfail]
      case hfail =>
        intro i hi
        apply tryTitleAt_eq_none
        have hx := hpre i hi
        rwa [hassoc] at hx
      have hcons : chars "(54)" ++ (ws ++ (b :: bs) ++ tail)
          = '(' :: ('5' :: ('4' :: (')' :: (ws ++ (b :: bs) ++ tail)))) := rfl
      rw [hcons]
      apply searchFrom_cons_some
      rw [← hcons]
      rw [tryTitleAt_marker]
      exact wsLazySpan_decomp _ ws b bs tail hws hb hin ht
    have hs2 : searchFrom tryTitleAt (pre ++ (chars "(54)" ++ (ws ++ b :: (bs ++ tail))))
        = some (b :: bs) := by
      simpa [List.append_assoc] using hsearch
    simp [parse_patent_info, hs2]
  · intro text hocc
    have hnone : searchFrom tryTitleAt text = none := by
      apply searchFrom_eq_none_of
      intro i
      exact tryTitleAt_eq_none ((occursFrom_eq_false_iff marker54At text).mp hocc i)
    simp [parse_patent_info, hnone]
    decide

/-- Witness for C3 at concrete inputs. -/
theorem claim3_title_rule_witness :
    (parse_patent_info ([] ++ chars "(54)" ++ chars " " ++ ('T' :: []) ++ [])).title
        = lstripParen (replaceNlSpace (pyStrip ('T' :: []))) ∧
    (parse_patent_info (chars "xyz")).title = chars "Title N/A" :=
  ⟨claim3_title_rule.1 [] (chars " ") 'T' [] []
      (fun _ hi => absurd hi (Nat.not_lt_zero _)) (by decide) (by decide)
      (fun _ hk => absurd hk (Nat.not_lt_zero _)) (Or.inl rfl),
   claim3_title_rule.2.1 (chars "xyz") (by decide)⟩

/-- C5: the inventors field is the text following the leftmost heading
Inventor or Inventors (any capitalization) followed by a colon, after the
whitespace consumed by backslash-s-star, terminated at the earliest later
numeric section marker or blank line or at the end of text; with no such
heading anywhere the fallback is returned; plus the claimed concrete
example (newline collapsed, section boundary respected). -/
theorem claim5_inventors_rule :
    (∀ (pre hd8 opt ws : List Char) (b : Char) (bs tail : List Char),
      hd8.map Char.toLower = chars "inventor" →
      (opt = [] ∨ ∃ c, opt = [c] ∧ c.toLower = 's') →
      (∀ i, i < pre.length →
        invHeadAt ((pre ++ hd8 ++ opt ++ chars ":" ++ ws ++ (b :: bs) ++ tail).drop i)
          = false) →
      ws.all isSpaceCh = true →
      isSpaceCh b = false →
      (∀ k, k < bs.length → termMarkerOrBlank (bs.drop k ++ tail) = false) →
      (tail = [] ∨ termMarkerOrBlank tail = true) →
      (parse_patent_info (pre ++ hd8 ++ opt ++ chars ":" ++ ws ++ (b :: bs) ++ tail)).inventors
        = replaceNlSpace (pyStrip (b :: bs))) ∧
    (∀ text, invHeadOccurs text = false →
      (parse_patent_info text).inventors = chars "Inventors N/A") ∧
    (parse_patent_info (chars "Inventors: Jane Doe; John Smith\n\n(57) Abstract")).inventors
      = chars "Jane Doe; John Smith" := by
  refine ⟨?_, ?_, by decide⟩
  · intro pre hd8 opt ws b bs tail h8 hopt hpre hws hb hin ht
    have hlen : hd8.length = 8 := by
      have h := congrArg List.length h8
      rw [List.length_map] at h
      exact h.trans rfl
    obtain ⟨h0, hrest, rfl⟩ : ∃ c t, hd8 = c :: t := by
      cases hd8 with
      | nil => simp at hlen
      | cons a t => exact ⟨a, t, rfl⟩
    have hassoc : pre ++ (h0 :: hrest) ++ opt ++ chars ":" ++ ws ++ (b :: bs) ++ tail
        = pre ++ ((h0 :: hrest) ++ (opt ++ (chars ":" ++ (ws ++ (b :: bs) ++ tail)))) := by
      simp [List.append_assoc]
    have hsearch : searchFrom tryInventorsAt
        (pre ++ (h0 :: hrest) ++ opt ++ chars ":" ++ ws ++ (b :: bs) ++ tail)
        = some (b :: bs) := by
      rw [hassoc]
      rw [searchFrom_append tryInventorsAt pre _ ?hfail]
      case hfail =>
        intro i hi
        apply tryInventorsAt_eq_none
        have hx := hpre i hi
        rwa [hassoc] at hx
      have hhead : tryInventorsAt
          ((h0 :: hrest) ++ (opt ++ (chars ":" ++ (ws ++ (b :: bs) ++ tail))))
          = some (b :: bs) := by
        rw [tryInventorsAt_heading (h0 :: hrest) opt _ h8 hopt]
        exact wsLazySpan_decomp _ ws b bs tail hws hb hin ht
      have hcons : (h0 :: hrest) ++ (opt ++ (chars ":" ++ (ws ++ (b :: bs) ++ tail)))
          = h0 :: (hrest ++ (opt ++ (chars ":" ++ (ws ++ (b :: bs) ++ tail)))) := rfl
      rw [hcons]
      apply searchFrom_cons_some
      rw [← hcons]
      exact hhead
    have hs2 : searchFrom tryInventorsAt
        (pre ++ h0 :: (hrest ++ (opt ++ (chars ":" ++ (ws ++ b :: (bs ++ tail))))))
        = some (b :: bs) := by
      simpa [List.append_assoc] using hsearch
    simp [parse_patent_info, hs2]
  · intro text hocc
    have hnone : searchFrom tryInventorsAt text = none := by
      apply searchFrom_eq_none_of
      intro i
      exact tryInventorsAt_eq_none ((occursFrom_eq_false_iff invHeadAt text).mp hocc i)
    simp [parse_patent_info, hnone]

/-- Witness for C5 at concrete inputs. -/
theorem claim5_inventors_rule_witness :
    (parse_patent_info
        ([] ++ chars "Inventor" ++ [] ++ chars ":" ++ chars " " ++ ('J' :: []) ++ [])).inventors
        = replaceNlSpace (pyStrip ('J' :: [])) ∧
    (parse_patent_info (chars "abc")).inventors = chars "Inventors N/A" :=
  ⟨claim5_inventors_rule.1 [] (chars "Inventor") [] (chars " ") 'J' [] []
      (by decide) (Or.inl rfl) (fun _ hi => absurd hi (Nat.not_lt_zero _))
      (by decide) (by decide) (fun _ hk => absurd hk (Nat.not_lt_zero _)) (Or.inl rfl),
   claim5_inventors_rule.2.1 (chars "abc") (by decide)⟩

/-- C10 amended: the date AND the number rules are the only
case-sensitive extraction rules.  A non-fallback date implies the literal
heading Date of Patent with exact capitalization occurs in the text;
the claimed date examples hold with exact capitalization and fail with
any other; the number rule distinguishes the case of the literal US; the
title, inventors and abstract rules match case-insensitively. -/
theorem claim10_amended_case_sensitivity :
    (∀ text, (parse_patent_info text).date ≠ chars "Date N/A" →
      containsLit (chars "Date of Patent:") text = true) ∧
    (parse_patent_info (chars "(45) Date of Patent: Jan. 5, 2021")).date
        = chars "Jan. 5, 2021" ∧
    (parse_patent_info (chars "(45) DATE OF PATENT: JAN. 5, 2021")).date
        = chars "Date N/A" ∧
    (parse_patent_info (chars "(45) Date of Patent: JAN. 5, 2021")).date
        = chars "Date N/A" ∧
    (parse_patent_info (chars "us 1,234,567 b2")).number = chars "PATENT # N/A" ∧
    (parse_patent_info (chars "US 1,234,567 B2")).number = chars "US 1,234,567 B2" ∧
    (parse_patent_info (chars "INVENTORS: X")).inventors = chars "X" ∧
    (parse_patent_info (chars "inventors: X")).inventors = chars "X" ∧
    (parse_patent_info (chars "ABSTRACT: y")).abstract = chars "y" ∧
    (parse_patent_info (chars "abstract y")).abstract = chars "y" ∧
    (parse_patent_info (chars "(54) T")).title = chars "T" := by
  refine ⟨?_, by decide, by decide, by decide, by decide, by decide, by decide,
    by decide, by decide, by decide, by decide⟩
  intro text hne
  cases hs : searchFrom tryDateAt text with
  | none => exact absurd (by simp [parse_patent_info, hs]) hne
  | some g =>
    obtain ⟨n, hn⟩ := searchFrom_some_drop hs
    exact occursFrom_drop_lift (tryDateAt_some_contains hn)

/-- Witness for the amended C10 at a concrete input. -/
theorem claim10_amended_case_sensitivity_witness :
    containsLit (chars "Date of Patent:") (chars "(45) Date of Patent: Jan. 5, 2021")
      = true :=
  claim10_amended_case_sensitivity.1 (chars "(45) Date of Patent: Jan. 5, 2021") (by decide)

/-- C4 amended: the number is extracted by the leftmost match of the
fixed pattern US, one whitespace character, one to three digits, comma,
three digits, comma, three digits, one whitespace character, one WORD
character (letter, digit or underscore; the claim said letter), one
digit.  When the pattern occurs nowhere the number is the fallback; when
it occurs, the extracted number is not the fallback and appears literally
in the text (no reformatting); the claimed example holds exactly. -/
theorem claim4_amended_number_rule :
    ∀ text : List Char,
      (amendedNumberOccurs text = false →
        (parse_patent_info text).number = chars "PATENT # N/A") ∧
      (amendedNumberOccurs text = true →
        (parse_patent_info text).number ≠ chars "PATENT # N/A" ∧
        containsLit ((parse_patent_info text).number) text = true) ∧
      (parse_patent_info (chars "US 10,123,456 B2")).number
        = chars "US 10,123,456 B2" := by
  intro text
  refine ⟨?_, ?_, by decide⟩
  · intro hocc
    have hnone : searchFrom tryNumberAt text = none := by
      apply searchFrom_eq_none_of
      intro i
      exact tryNumberAt_eq_none ((occursFrom_eq_false_iff amendedNumberAt text).mp hocc i)
    simp [parse_patent_info, hnone]
  · intro hocc
    have hsome : (searchFrom tryNumberAt text).isSome = true := by
      rw [searchFrom_isSome_iff tryNumberAt amendedNumberAt tryNumberAt_isSome]
      exact hocc
    obtain ⟨m, hm⟩ := Option.isSome_iff_exists.mp hsome
    obtain ⟨n, hn⟩ := searchFrom_some_drop hm
    obtain ⟨_, ⟨q, hq⟩, w2, t2, hshape⟩ := tryNumberAt_some_full hn
    have hnum : (parse_patent_info text).number = m := by simp [parse_patent_info, hm]
    constructor
    · rw [hnum, hshape]
      intro hEq
      have hh := congrArg List.head? hEq
      rw [show (chars "PATENT # N/A").head? = some 'P' from rfl] at hh
      simp at hh
    · rw [hnum]
      unfold containsLit
      refine occursFrom_drop_lift (n := n) ?_
      apply occursFrom_here
      rw [hq, stripLit_append]
      rfl

/-- Witness for the amended C4 at concrete inputs. -/
theorem claim4_amended_number_rule_witness :
    (parse_patent_info (chars "zz")).number = chars "PATENT # N/A" ∧
    (parse_patent_info (chars "US 10,123,456 B2")).number ≠ chars "PATENT # N/A" ∧
    containsLit ((parse_patent_info (chars "US 10,123,456 B2")).number)
      (chars "US 10,123,456 B2") = true :=
  ⟨(claim4_amended_number_rule _).1 (by decide),
   ((claim4_amended_number_rule _).2.1 (by decide)).1,
   ((claim4_amended_number_rule _).2.1 (by decide)).2⟩

/-- C10 counterexample: the date rule is NOT the only case-sensitive
rule; the number rule is also case-sensitive (the literal US must be
upper case). -/
theorem claim10_counterexample :
    (parse_patent_info (chars "us 1,234,567 b2")).number = chars "PATENT # N/A" ∧
    (parse_patent_info (chars "US 1,234,567 B2")).number = chars "US 1,234,567 B2" := by
  refine ⟨by decide, by decide⟩


/-- C1: a successful run of convert_pdf_to_images produces exactly one
page result per source page, in source order: the returned image paths are
the decimal names page_1.png through page_N.png in strictly increasing
page order (the mapped index list is 1..N), the returned texts are the
per-page combined texts in the same order, and the write log consists of
each page block in order. -/
theorem claim1_page_results_ordered :
    ∀ (recognize : PILImage → List Char) (images : List PILImage),
      runPaths recognize images = (List.range' 1 images.length).map pngName ∧
      (runPaths recognize images).length = images.length ∧
      runTexts recognize images = images.map (combinedTextOf recognize) ∧
      (runTexts recognize images).length = images.length ∧
      runWrites recognize images =
        (((List.range' 1 images.length).zip images).map
          (fun p => (processPage recognize p.1 p.2).1)).flatten := by
  intro recognize images
  have h := pageLoop_eq recognize 1 images
  refine ⟨?_, ?_, ?_, ?_, ?_⟩ <;>
    simp [runPaths, runTexts, runWrites, convert_pdf_to_images, h, List.length_range']

/-- C7: for every page, the in-memory PageText equals the recognized
left-column text, two newlines, and the recognized right-column text, and
the persisted page text artifact holds exactly that content: reading the
artifact named page_(k+1).txt back from the write log reproduces the
in-memory text bit for bit. -/
theorem claim7_pagetext_roundtrip :
    ∀ (recognize : PILImage → List Char) (images : List PILImage) (k : Nat)
      (h : k < images.length),
      (runTexts recognize images)[k]?
        = some (combinedTextOf recognize (images.get ⟨k, h⟩)) ∧
      combinedTextOf recognize (images.get ⟨k, h⟩)
        = recognize (split_image (images.get ⟨k, h⟩)).1 ++ chars "\n\n"
            ++ recognize (split_image (images.get ⟨k, h⟩)).2 ∧
      List.lookup (txtName (k + 1)) (runWrites recognize images)
        = some (.textFile (combinedTextOf recognize (images.get ⟨k, h⟩))) := by
  intro recognize images k h
  refine ⟨?_, rfl, ?_⟩
  · have hT : runTexts recognize images = images.map (combinedTextOf recognize) := by
      simp [runTexts, convert_pdf_to_images, pageLoop_eq recognize 1 images]
    rw [hT]
    simp [List.getElem?_map, List.getElem?_eq_getElem h]
  · have hW : runWrites recognize images = (pageLoop recognize 1 images).1 := by
      simp [runWrites, convert_pdf_to_images]
    rw [hW]
    have hres := pageLoop_lookup_txt recognize images 1 k h
    rwa [show (1 : Nat) + k = k + 1 by omega] at hres

/-- Witness for C7 at a concrete two-page run. -/
theorem claim7_pagetext_roundtrip_witness :
    (runTexts (fun _ => chars "ab") [⟨5, 4⟩, ⟨3, 2⟩])[1]? = some (chars "ab\n\nab") ∧
    List.lookup (txtName 2) (runWrites (fun _ => chars "ab") [⟨5, 4⟩, ⟨3, 2⟩])
      = some (.textFile (chars "ab\n\nab")) := by
  obtain ⟨h1, _h2, h3⟩ :=
    claim7_pagetext_roundtrip (fun _ => chars "ab") [⟨5, 4⟩, ⟨3, 2⟩] 1 (by decide)
  constructor
  · rw [h1]
    decide
  · rw [show (2 : Nat) = 1 + 1 from rfl, h3]
    decide

end Patent
